import Mathlib

/-!
Verification of `doctest` (src/src/main.rs): a command-line filter that
extracts shell command text from fenced code blocks of a Markdown document.

The embedding models:
* the string-splitting primitives used by the Rust code (`split_once`,
  `split(',')`, `split_whitespace`) as functions on `List Char` / `String`;
* the OS map built from an os-release stream (`HashMap` built by successive
  inserts, hence last-write-wins) as an association list with unique keys;
* the fence predicate `CodeBlockKindExt::include` (named `includeBlock` /
  `includeFenced` here because `include` is a Lean keyword), with Rust panics
  (`Option::unwrap` on `None`) modelled as `Except.error` carrying the fixed
  panic message;
* the event filter `filter_markdown` as a fold over a list of Markdown
  events carrying the dump bit, the Markdown parser itself being the
  external black box that produces those events.
-/

set_option autoImplicit false

/-- Rust `str::split_once(c)` on a list of characters: split at the first
occurrence of `c`, returning the parts before and after it, or `none` when
`c` does not occur. -/
def splitOnceList (c : Char) : List Char → Option (List Char × List Char)
  | [] => none
  | x :: xs =>
    if x = c then some ([], xs)
    else (splitOnceList c xs).map (fun p => (x :: p.1, p.2))

/-- Rust `str::split_once` on strings (the patterns used by the source,
`':'`, `';'` and `"="`, all match exactly one character). -/
def splitOnceStr (c : Char) (s : String) : Option (String × String) :=
  (splitOnceList c s.data).map (fun p => (String.mk p.1, String.mk p.2))

/-- Rust `str::split(c)`: split on every occurrence of `c`, keeping empty
pieces (`"".split(c)` yields `[""]`). -/
def splitAllList (c : Char) : List Char → List (List Char)
  | [] => [[]]
  | x :: xs =>
    if x = c then [] :: splitAllList c xs
    else
      match splitAllList c xs with
      | [] => [[x]]
      | g :: gs => (x :: g) :: gs

/-- Rust `"…".split(',')` on strings, as used for the context list. -/
def splitComma (s : String) : List String :=
  (splitAllList ',' s.data).map String.mk

/-- Rust `str::split_whitespace` on a list of characters: maximal runs of
non-whitespace characters; never yields an empty token. `cur` holds the
characters of the current token, in reverse. -/
def splitWsAux : List Char → List Char → List (List Char)
  | [], cur => if cur = [] then [] else [cur.reverse]
  | x :: xs, cur =>
    if x.isWhitespace then
      if cur = [] then splitWsAux xs [] else cur.reverse :: splitWsAux xs []
    else splitWsAux xs (x :: cur)

/-- Rust `str::split_whitespace` on a list of characters. -/
def splitWsList (l : List Char) : List (List Char) :=
  splitWsAux l []

/-- Rust `str::split_whitespace` on strings, as used for the os-list. -/
def splitWs (s : String) : List String :=
  (splitWsList s.data).map String.mk

/-- The OS map: key/value pairs with unique keys (a `HashMap<String, String>`
in the source). -/
abbrev OsMap := List (String × String)

/-- `HashMap::get`: the value stored for `key`, if any. -/
def osGet : OsMap → String → Option String
  | [], _ => none
  | (k, v) :: rest, key => if k = key then some v else osGet rest key

/-- `HashMap::insert`: replace the value of an existing key, or append the
new binding. -/
def osInsert : OsMap → String → String → OsMap
  | [], key, val => [(key, val)]
  | (k, v) :: rest, key, val =>
    if k = key then (key, val) :: rest else (k, v) :: osInsert rest key val

/-- The message of the Rust panic raised by `Option::unwrap()` on `None`
(at `x.split_once("=").unwrap()` in `CodeBlockKindExt::include`). -/
def unwrapPanicMsg : String := "called `Option::unwrap()` on a `None` value"

/-- The os-list scan of `CodeBlockKindExt::include`:
`o.split_whitespace().map(|x| x.split_once("=").unwrap()).any(|(k, v)| os.get(k) … == Some(v))`.
The iterator is lazy, so a token lacking `=` only panics when the scan
reaches it (no earlier token matched). -/
def osAny (os : OsMap) : List String → Except String Bool
  | [] => .ok false
  | t :: ts =>
    match splitOnceStr '=' t with
    | none => .error unwrapPanicMsg
    | some (k, v) => if osGet os k = some v then .ok true else osAny os ts

/-- The fence predicate of `CodeBlockKindExt::include` on the info-string of
a fenced block (the `Self::Fenced(k)` arm). `Except.error` models the Rust
panic on an os-list token lacking `=`. -/
def includeFenced (info : String) (cx : List String) (os : OsMap) :
    Except String Bool :=
  match splitOnceStr ':' info with
  | some (lang, param) =>
    if lang = "sh" then
      let co := (splitOnceStr ';' param).getD ("", param)
      if co.1 ≠ "" ∧ ¬ ∃ t ∈ splitComma co.1, t ∈ cx then
        .ok false
      else if co.2 = "" then
        .ok true
      else
        osAny os (splitWs co.2)
    else .ok (info = "sh")
  | none => .ok (info = "sh")

/-- `pulldown_cmark::CodeBlockKind`. -/
inductive CodeBlockKind where
  | fenced (info : String)
  | indented
deriving DecidableEq

/-- `CodeBlockKindExt::include` on a code-block kind: indented blocks are
never included (`_ => return false`). -/
def includeBlock (k : CodeBlockKind) (cx : List String) (os : OsMap) :
    Except String Bool :=
  match k with
  | .fenced info => includeFenced info cx os
  | .indented => .ok false

/-- One line of the os-release loader in `filter_markdown`:
`line.split_once('=')`, keeping key and value verbatim. -/
def parseLine (line : String) : Option (String × String) :=
  splitOnceStr '=' line

/-- The os-release collection loop: lines are inserted in order into the map
(later keys overwrite earlier), stopping with
`invalid os-release line: {line}` at the first line lacking `=`. -/
def osReleaseLoop (acc : OsMap) : List String → Except String OsMap
  | [] => .ok acc
  | l :: ls =>
    match parseLine l with
    | some (k, v) => osReleaseLoop (osInsert acc k v) ls
    | none => .error ("invalid os-release line: " ++ l)

/-- The os-release loader of `filter_markdown`, with the outer
`failed to read os-release: {e}` wrapping. -/
def parseOsRelease (lines : List String) : Except String OsMap :=
  (osReleaseLoop [] lines).mapError (fun e => "failed to read os-release: " ++ e)

/-- The Markdown events distinguished by `filter_markdown`: code-block start
and end, text, and everything else. -/
inductive MdEvent where
  | blockStart (k : CodeBlockKind)
  | blockEnd (k : CodeBlockKind)
  | text (s : String)
  | other
deriving DecidableEq

/-- The `filter_map` loop of `filter_markdown` over the event stream,
carrying the dump bit and collecting the emitted strings, together with the
final value of the dump bit. A block-start whose predicate fails the guard
falls through to the catch-all and leaves the dump bit unchanged; only a
fenced block end clears it. -/
def runEvents (cx : List String) (os : OsMap) :
    Bool → List MdEvent → Except String (Bool × List String)
  | dump, [] => .ok (dump, [])
  | dump, .blockStart k :: es =>
    match includeBlock k cx os with
    | .error m => .error m
    | .ok b => runEvents cx os (if b then true else dump) es
  | _, .blockEnd (.fenced _) :: es => runEvents cx os false es
  | dump, .blockEnd .indented :: es => runEvents cx os dump es
  | dump, .text s :: es =>
    (runEvents cx os dump es).map (fun r => (r.1, if dump then s :: r.2 else r.2))
  | dump, .other :: es => runEvents cx os dump es

/-- `filter_markdown`: build the OS map from the os-release lines, then run
the event filter (starting with the dump bit `false`) over the event stream
the Markdown parser produces for the document. -/
def filter_markdown (cx : List String) (osLines : List String)
    (events : List MdEvent) : Except String (List String) :=
  match parseOsRelease osLines with
  | .error m => .error m
  | .ok os =>
    match runEvents cx os false events with
    | .error m => .error m
    | .ok r => .ok r.2

/-- An inner event of a code block in a well-nested event stream: a text
event (`some s`) or any other non-block event (`none`). -/
def innerEvent : Option String → MdEvent
  | some s => .text s
  | none => .other

/-- A code block of a well-nested event stream: its kind and the events
between its start and end events. -/
structure Block where
  kind : CodeBlockKind
  inner : List (Option String)
deriving DecidableEq

/-- An item of a well-nested Markdown event stream: a code block (start
event, inner events, matching end event), or a single event outside all
blocks. -/
inductive DocItem where
  | block (b : Block)
  | text (s : String)
  | other
deriving DecidableEq

/-- The events of one document item. -/
def flattenItem : DocItem → List MdEvent
  | .block b => .blockStart b.kind :: (b.inner.map innerEvent ++ [.blockEnd b.kind])
  | .text s => [.text s]
  | .other => [.other]

/-- The well-nested event stream of a structured document: code-block start
and end events are properly paired and not nested. -/
def flattenDoc (d : List DocItem) : List MdEvent :=
  (d.map flattenItem).flatten

/-- The text events delivered inside a block, in order. -/
def blockTexts (b : Block) : List String :=
  b.inner.filterMap id

/-- The texts one document item contributes to the reference output: the
texts of a block the fence predicate selects; nothing for a non-selected
block or a non-block event. -/
def itemOut (cx : List String) (os : OsMap) : DocItem → List String
  | .block b =>
    match includeBlock b.kind cx os with
    | .ok true => blockTexts b
    | _ => []
  | _ => []

/-- The reference output of the spec: the texts of exactly the blocks the
fence predicate selects, in document order; non-selected blocks and
non-block events contribute nothing. -/
def selectedOut (cx : List String) (os : OsMap) (d : List DocItem) :
    List String :=
  (d.map (itemOut cx os)).flatten

/-- The language tag of a fence info-string as the spec describes it: the
part before the first `:`, or the whole info-string when there is no `:`. -/
def langTag (info : String) : String :=
  match splitOnceStr ':' info with
  | some p => p.1
  | none => info

/-- The lines of the `OS_RELEASE` test fixture of the source. -/
def osReleaseLines : List String :=
  ["PRETTY_NAME=\"Debian GNU/Linux 11 (bullseye)\"",
   "NAME=\"Debian GNU/Linux\"",
   "VERSION_ID=\"11\"",
   "VERSION=\"11 (bullseye)\"",
   "VERSION_CODENAME=bullseye",
   "ID=debian",
   "HOME_URL=\"https://www.debian.org/\"",
   "SUPPORT_URL=\"https://www.debian.org/support\"",
   "BUG_REPORT_URL=\"https://bugs.debian.org/\""]

/-- The event stream the black-box CommonMark parser produces for the
`MARKDOWN` test fixture of the source (the six-block document of the spec):
each fenced block delivers its raw content line, trailing newline included,
as one text event; headings and paragraphs contribute only non-block
events. -/
def testDoc : List DocItem :=
  [.text "Welcome!",
   .text "Welcome to Enarx.",
   .text "Getting Started",
   .other,
   .block ⟨.fenced "sh:ID=fedora", [some "echo fedora\n"]⟩,
   .other,
   .block ⟨.fenced "sh:ID=debian ID_LIKE=debian", [some "echo debian\n"]⟩,
   .other,
   .block ⟨.fenced "sh:git,sev;", [some "echo git or sev\n"]⟩,
   .other,
   .block ⟨.fenced "sh:notgit; ID=debian", [some "echo notgit\n"]⟩,
   .other,
   .block ⟨.fenced "sh:git; ID=debian ID=fedora",
           [some "echo git on debian or fedora\n"]⟩,
   .other,
   .block ⟨.fenced "sh", [some "echo enarx\n"]⟩]

/-! ### Helper lemmas about the splitting primitives and the OS map -/

theorem splitOnceList_eq_some {c : Char} :
    ∀ {l a b : List Char}, splitOnceList c l = some (a, b) → l = a ++ c :: b := by
  intro l
  induction l with
  | nil => intro a b h; simp [splitOnceList] at h
  | cons x xs ih =>
    intro a b h
    simp only [splitOnceList] at h
    by_cases hx : x = c
    · rw [if_pos hx] at h
      rw [Option.some.injEq, Prod.mk.injEq] at h
      obtain ⟨ha, hb⟩ := h
      subst ha
      subst hb
      simp [hx]
    · rw [if_neg hx] at h
      cases hsp : splitOnceList c xs with
      | none => rw [hsp] at h; simp at h
      | some p =>
        rw [hsp] at h
        simp at h
        obtain ⟨ha, hb⟩ := h
        subst hb
        rw [← ha]
        have hxs := ih hsp
        rw [hxs]
        simp

theorem splitOnceList_append_cons {c : Char} :
    ∀ {a : List Char} (b : List Char), c ∉ a →
      splitOnceList c (a ++ c :: b) = some (a, b) := by
  intro a
  induction a with
  | nil => intro b _; simp [splitOnceList]
  | cons x xs ih =>
    intro b hmem
    have hx : x ≠ c := by
      intro hxc
      exact hmem (hxc ▸ List.mem_cons_self x xs)
    have hxs : c ∉ xs := fun hc => hmem (List.mem_cons_of_mem x hc)
    simp [splitOnceList, if_neg hx, ih b hxs]

theorem mem_of_splitOnceStr {c : Char} {s lang param : String}
    (h : splitOnceStr c s = some (lang, param)) : c ∈ s.data := by
  simp only [splitOnceStr] at h
  cases hsp : splitOnceList c s.data with
  | none => rw [hsp] at h; simp at h
  | some p =>
    have := splitOnceList_eq_some hsp
    rw [this]
    simp

theorem osGet_osInsert_self (m : OsMap) (k v : String) :
    osGet (osInsert m k v) k = some v := by
  induction m with
  | nil => simp [osInsert, osGet]
  | cons p rest ih =>
    obtain ⟨k', v'⟩ := p
    by_cases hk : k' = k
    · simp [osInsert, hk, osGet]
    · simp [osInsert, hk, osGet, ih]

/-! ### Helper lemmas about the event filter -/

theorem runEvents_append (cx : List String) (os : OsMap) (d : Bool)
    (xs ys : List MdEvent) :
    runEvents cx os d (xs ++ ys) =
      match runEvents cx os d xs with
      | .error m => .error m
      | .ok p =>
        match runEvents cx os p.1 ys with
        | .error m => .error m
        | .ok q => .ok (q.1, p.2 ++ q.2) := by
  induction xs generalizing d with
  | nil =>
    simp only [List.nil_append, runEvents]
    cases runEvents cx os d ys <;> simp
  | cons e es ih =>
    cases e with
    | blockStart k =>
      simp only [List.cons_append, runEvents]
      cases includeBlock k cx os with
      | error m => rfl
      | ok b => exact ih _
    | blockEnd k =>
      cases k with
      | fenced info => simp only [List.cons_append, runEvents]; exact ih _
      | indented => simp only [List.cons_append, runEvents]; exact ih _
    | text s =>
      simp only [List.cons_append, runEvents, List.append_eq]
      rw [ih d]
      cases hes : runEvents cx os d es with
      | error m => simp [Except.map]
      | ok p =>
        cases hys : runEvents cx os p.1 ys with
        | error m => simp [hys, Except.map]
        | ok q => cases d <;> simp [hys, Except.map]
    | other =>
      simp only [List.cons_append, runEvents]
      exact ih _

theorem runEvents_innerEvents (cx : List String) (os : OsMap) (d : Bool)
    (l : List (Option String)) :
    runEvents cx os d (l.map innerEvent) =
      .ok (d, if d then l.filterMap id else []) := by
  induction l with
  | nil => cases d <;> simp [runEvents]
  | cons o l ih =>
    cases o with
    | none =>
      simp only [List.map_cons, innerEvent, runEvents, ih]
      cases d <;> simp [List.filterMap_cons]
    | some s =>
      simp only [List.map_cons, innerEvent, runEvents, ih]
      cases d <;> simp [Except.map, List.filterMap_cons]

theorem runEvents_flattenItem (cx : List String) (os : OsMap) (it : DocItem) :
    runEvents cx os false (flattenItem it) =
      match it with
      | .block b =>
        match includeBlock b.kind cx os with
        | .error m => .error m
        | .ok _ => .ok (false, itemOut cx os it)
      | _ => .ok (false, []) := by
  cases it with
  | text s => simp [flattenItem, runEvents, Except.map]
  | other => simp [flattenItem, runEvents]
  | block b =>
    obtain ⟨k, inner⟩ := b
    cases k with
    | indented =>
      simp only [flattenItem, runEvents, includeBlock, itemOut]
      rw [runEvents_append, runEvents_innerEvents]
      simp [runEvents]
    | fenced info =>
      cases hinc : includeFenced info cx os with
      | error m => simp [flattenItem, runEvents, includeBlock, itemOut, hinc]
      | ok bi =>
        cases bi with
        | false =>
          simp only [flattenItem, runEvents, includeBlock, itemOut, hinc]
          rw [runEvents_append, runEvents_innerEvents]
          simp [runEvents]
        | true =>
          simp only [flattenItem, runEvents, includeBlock, itemOut, hinc]
          rw [runEvents_append, runEvents_innerEvents]
          simp [runEvents, blockTexts]

theorem flattenDoc_cons (it : DocItem) (rest : List DocItem) :
    flattenDoc (it :: rest) = flattenItem it ++ flattenDoc rest := by
  simp [flattenDoc]

theorem runEvents_flattenDoc (cx : List String) (os : OsMap) :
    ∀ (doc : List DocItem) (p : Bool × List String),
      runEvents cx os false (flattenDoc doc) = .ok p →
      p = (false, selectedOut cx os doc) := by
  intro doc
  induction doc with
  | nil =>
    intro p h
    simp [flattenDoc, runEvents] at h
    simp [selectedOut, ← h]
  | cons it rest ih =>
    intro p h
    rw [flattenDoc_cons, runEvents_append, runEvents_flattenItem] at h
    have key : (match it with
        | DocItem.block b =>
          match includeBlock b.kind cx os with
          | Except.error m => Except.error m
          | Except.ok _ => Except.ok (false, itemOut cx os it)
        | _ => (Except.ok (false, []) : Except String (Bool × List String)))
          = Except.ok (false, itemOut cx os it)
        ∨ ∃ m, (match it with
        | DocItem.block b =>
          match includeBlock b.kind cx os with
          | Except.error m => Except.error m
          | Except.ok _ => Except.ok (false, itemOut cx os it)
        | _ => (Except.ok (false, []) : Except String (Bool × List String)))
          = Except.error m := by
      cases it with
      | block b =>
        dsimp only
        cases includeBlock b.kind cx os with
        | error m => right; exact ⟨m, rfl⟩
        | ok a => left; rfl
      | text s => left; simp [itemOut]
      | other => left; simp [itemOut]
    rcases key with key | ⟨m, key⟩
    · rw [key] at h
      simp only [] at h
      cases hr : runEvents cx os false (flattenDoc rest) with
      | error m => rw [hr] at h; simp at h
      | ok q =>
        rw [hr] at h
        simp only [Option.some.injEq] at h
        have hq := ih q hr
        rw [hq] at h
        simp at h
        rw [← h]
        simp [selectedOut]
    · rw [key] at h
      simp at h

/-! ### Claim theorems -/

/-- C1: for every well-nested Markdown event stream (given as a structured
document), every OS map and every context set, when the event filter
completes without a panic the concatenation of the strings it produces
equals the concatenation, in document order, of the text events delivered
inside exactly those fenced code blocks whose info-string satisfies the
fence predicate; text from non-selected blocks and from non-block events
contributes nothing. -/
theorem filter_output_is_selected_blocks (cx : List String) (os : OsMap)
    (doc : List DocItem) (d : Bool) (out : List String)
    (h : runEvents cx os false (flattenDoc doc) = .ok (d, out)) :
    String.join out = String.join (selectedOut cx os doc) := by
  have hp := runEvents_flattenDoc cx os doc (d, out) h
  rw [Prod.mk.injEq] at hp
  rw [hp.2]

theorem filter_output_is_selected_blocks_witness :
    runEvents [] [] false
        (flattenDoc [DocItem.block ⟨CodeBlockKind.fenced "sh", [some "hi\n"]⟩,
                     DocItem.text "x"]) = .ok (false, ["hi\n"])
  ∧ String.join ["hi\n"] =
      String.join (selectedOut [] []
        [DocItem.block ⟨CodeBlockKind.fenced "sh", [some "hi\n"]⟩,
         DocItem.text "x"]) :=
  ⟨rfl, filter_output_is_selected_blocks [] []
    [DocItem.block ⟨CodeBlockKind.fenced "sh", [some "hi\n"]⟩,
     DocItem.text "x"] false ["hi\n"] rfl⟩

/-- C4: on every well-nested event stream the dump bit starts `false` and is
`false` again at stream end (instantiating `doc` at any item-boundary prefix
gives "false between blocks"); and a block whose start event sets the bit
`true` is necessarily fenced, and its later fenced end event clears the bit,
so the bit is `false` after the block's events. -/
theorem dump_bit_false_outside_blocks :
    (∀ (cx : List String) (os : OsMap) (doc : List DocItem)
       (d : Bool) (out : List String),
       runEvents cx os false (flattenDoc doc) = .ok (d, out) → d = false)
  ∧ (∀ (cx : List String) (os : OsMap) (b : Block),
       includeBlock b.kind cx os = .ok true →
       ∃ info, b.kind = CodeBlockKind.fenced info ∧
         ∃ out, runEvents cx os false (flattenItem (DocItem.block b)) =
           .ok (false, out)) := by
  constructor
  · intro cx os doc d out h
    have hp := runEvents_flattenDoc cx os doc (d, out) h
    rw [Prod.mk.injEq] at hp
    exact hp.1
  · intro cx os b hinc
    obtain ⟨info, hk⟩ : ∃ info, b.kind = CodeBlockKind.fenced info := by
      cases hbk : b.kind with
      | fenced info => exact ⟨info, rfl⟩
      | indented => rw [hbk] at hinc; simp [includeBlock] at hinc
    refine ⟨info, hk, ?_⟩
    rw [runEvents_flattenItem]
    dsimp only
    rw [hinc]
    exact ⟨itemOut cx os (DocItem.block b), rfl⟩

theorem dump_bit_false_outside_blocks_witness :
    (false = false)
  ∧ (∃ info,
       (Block.mk (CodeBlockKind.fenced "sh") [some "hi\n"]).kind =
         CodeBlockKind.fenced info ∧
       ∃ out, runEvents [] [] false
         (flattenItem (DocItem.block
           (Block.mk (CodeBlockKind.fenced "sh") [some "hi\n"]))) =
         .ok (false, out)) :=
  ⟨dump_bit_false_outside_blocks.1 [] []
     [DocItem.block ⟨CodeBlockKind.fenced "sh", [some "hi\n"]⟩]
     false ["hi\n"] rfl,
   dump_bit_false_outside_blocks.2 [] []
     (Block.mk (CodeBlockKind.fenced "sh") [some "hi\n"]) rfl⟩

/-- C2: for the six-block document of the spec and the Debian os-release
fixture (whose map contains `ID=debian`), running with an empty context set
yields exactly `echo debian\necho enarx\n`: the `git,sev`, `notgit` and
`git` blocks fail the context constraint, the `ID=fedora` block fails the
OS constraint, and only the `sh:ID=debian ID_LIKE=debian` and plain `sh`
blocks are selected. -/
theorem six_block_document_empty_context :
    filter_markdown [] osReleaseLines (flattenDoc testDoc) =
      .ok ["echo debian\n", "echo enarx\n"]
  ∧ String.join ["echo debian\n", "echo enarx\n"] = "echo debian\necho enarx\n"
  ∧ (parseOsRelease osReleaseLines).map (fun os =>
      [includeFenced "sh:ID=fedora" [] os,
       includeFenced "sh:ID=debian ID_LIKE=debian" [] os,
       includeFenced "sh:git,sev;" [] os,
       includeFenced "sh:notgit; ID=debian" [] os,
       includeFenced "sh:git; ID=debian ID=fedora" [] os,
       includeFenced "sh" [] os]) =
    .ok [.ok false, .ok true, .ok false, .ok false, .ok false, .ok true] :=
  ⟨rfl, rfl, rfl⟩

/-- C9: context-list tokenization splits on `,` without trimming whitespace:
on the fence `sh:git, sev;` the tokens are literally `git` and ` sev`, so
for every OS map the context set `{"sev"}` does not select the block while
`{" sev"}` does. -/
theorem ctx_tokens_not_trimmed (os : OsMap) :
    includeFenced "sh:git, sev;" ["sev"] os = .ok false
  ∧ includeFenced "sh:git, sev;" [" sev"] os = .ok true :=
  ⟨rfl, rfl⟩

/-- C5: the fence predicate is monotone in the context set: for every fence,
every OS map and context sets `cx ⊆ cx'`, a fence selected under `cx` is
selected under `cx'` (adding context tags can only enable matches). -/
theorem include_monotone_in_context (k : CodeBlockKind)
    (cx cx' : List String) (os : OsMap) (hsub : cx ⊆ cx')
    (h : includeBlock k cx os = .ok true) :
    includeBlock k cx' os = .ok true := by
  cases k with
  | indented => simp [includeBlock] at h
  | fenced info =>
    simp only [includeBlock] at h ⊢
    cases hsplit : splitOnceStr ':' info with
    | none =>
      simp only [includeFenced, hsplit] at h ⊢
      exact h
    | some p =>
      obtain ⟨lang, param⟩ := p
      simp only [includeFenced, hsplit] at h ⊢
      by_cases hl : lang = "sh"
      · rw [if_pos hl] at h ⊢
        by_cases hc : ((splitOnceStr ';' param).getD ("", param)).1 ≠ "" ∧
            ¬ ∃ t ∈ splitComma ((splitOnceStr ';' param).getD ("", param)).1,
              t ∈ cx
        · rw [if_pos hc] at h
          exact absurd h (by simp)
        · rw [if_neg hc] at h
          have hc' : ¬ (((splitOnceStr ';' param).getD ("", param)).1 ≠ "" ∧
              ¬ ∃ t ∈ splitComma ((splitOnceStr ';' param).getD ("", param)).1,
                t ∈ cx') := by
            intro hcontra
            apply hc
            refine ⟨hcontra.1, ?_⟩
            intro hex
            obtain ⟨t, htmem, htcx⟩ := hex
            exact hcontra.2 ⟨t, htmem, hsub htcx⟩
          rw [if_neg hc']
          exact h
      · rw [if_neg hl] at h ⊢
        exact h

theorem include_monotone_in_context_witness :
    ["git"] ⊆ ["git", "sev"] ∧
    includeBlock (CodeBlockKind.fenced "sh:git,sev;") ["git", "sev"] [] =
      .ok true :=
  ⟨by simp, include_monotone_in_context (CodeBlockKind.fenced "sh:git,sev;")
    ["git"] ["git", "sev"] [] (by simp) rfl⟩

/-- C6: a fenced block whose info-string's language tag (the part before the
first `:`, or the whole info-string when there is no `:`) is not `sh` is
never selected, for every context set and OS map; indented code blocks are
never selected either. -/
theorem non_sh_never_selected :
    (∀ (info : String) (cx : List String) (os : OsMap),
       langTag info ≠ "sh" →
       includeBlock (CodeBlockKind.fenced info) cx os = .ok false)
  ∧ (∀ (cx : List String) (os : OsMap),
       includeBlock CodeBlockKind.indented cx os = .ok false) := by
  constructor
  · intro info cx os hlang
    cases hsplit : splitOnceStr ':' info with
    | none =>
      have hinfo : info ≠ "sh" := by simpa [langTag, hsplit] using hlang
      simp [includeBlock, includeFenced, hsplit, hinfo]
    | some p =>
      obtain ⟨lang, param⟩ := p
      have hl : lang ≠ "sh" := by simpa [langTag, hsplit] using hlang
      have hinfo : info ≠ "sh" := by
        intro heq
        have hmem := mem_of_splitOnceStr hsplit
        rw [heq] at hmem
        exact absurd hmem (by decide)
      simp [includeBlock, includeFenced, hsplit, hl, hinfo]
  · intro cx os
    rfl

theorem non_sh_never_selected_witness :
    langTag "txt" ≠ "sh" ∧
    includeBlock (CodeBlockKind.fenced "txt") [] [] = .ok false :=
  ⟨by decide, non_sh_never_selected.1 "txt" [] [] (by decide)⟩

theorem osReleaseLoop_error (acc : OsMap) (lines : List String)
    (h : ∃ l ∈ lines, parseLine l = none) :
    ∃ l ∈ lines, parseLine l = none ∧
      osReleaseLoop acc lines = .error ("invalid os-release line: " ++ l) := by
  induction lines generalizing acc with
  | nil => simp at h
  | cons l ls ih =>
    cases hpl : parseLine l with
    | none =>
      exact ⟨l, List.mem_cons_self l ls, hpl, by simp [osReleaseLoop, hpl]⟩
    | some kv =>
      obtain ⟨k, v⟩ := kv
      have h' : ∃ x ∈ ls, parseLine x = none := by
        obtain ⟨x, hx, hpx⟩ := h
        rcases List.mem_cons.mp hx with rfl | hx'
        · rw [hpl] at hpx
          exact absurd hpx (by simp)
        · exact ⟨x, hx', hpx⟩
      obtain ⟨x, hx, hpx, hloop⟩ := ih (osInsert acc k v) h'
      exact ⟨x, List.mem_cons_of_mem l hx, hpx,
        by simp [osReleaseLoop, hpl, hloop]⟩

/-- C7: building the OS map from an os-release stream fails, surfacing the
offending line, whenever some input line contains no `=`; `filter_markdown`
then returns that error and produces no output. -/
theorem osrelease_missing_eq_errors (cx : List String) (osLines : List String)
    (events : List MdEvent) (h : ∃ l ∈ osLines, parseLine l = none) :
    ∃ l ∈ osLines, parseLine l = none ∧
      filter_markdown cx osLines events =
        .error ("failed to read os-release: invalid os-release line: " ++ l) := by
  obtain ⟨l, hl, hpl, hloop⟩ := osReleaseLoop_error [] osLines h
  refine ⟨l, hl, hpl, ?_⟩
  have hlit : ("failed to read os-release: " : String) ++
      "invalid os-release line: " =
      "failed to read os-release: invalid os-release line: " := by decide
  have hmsg : ("failed to read os-release: " : String) ++
      ("invalid os-release line: " ++ l) =
      "failed to read os-release: invalid os-release line: " ++ l := by
    rw [← String.append_assoc, hlit]
  simp [filter_markdown, parseOsRelease, hloop, Except.mapError, hmsg]

theorem osrelease_missing_eq_errors_witness :
    (∃ l ∈ ["oops"], parseLine l = none)
  ∧ ∃ l ∈ ["oops"], parseLine l = none ∧
      filter_markdown [] ["oops"] [] =
        .error ("failed to read os-release: invalid os-release line: " ++ l) :=
  ⟨by decide, osrelease_missing_eq_errors [] ["oops"] [] (by decide)⟩

/-- C8: each os-release line is split at its first `=` only — the value may
itself contain `=` and is stored verbatim, quotes included — and inserting a
key that is already in the map overwrites its value, so when the same key
occurs on several lines the last line wins. -/
theorem osrelease_first_split_last_wins :
    (∀ k v : String, '=' ∉ k.data →
       parseLine (k ++ "=" ++ v) = some (k, v))
  ∧ (∀ (m : OsMap) (k v : String), osGet (osInsert m k v) k = some v)
  ∧ (∀ (acc : OsMap) (k v : String) (ls : List String), '=' ∉ k.data →
       osReleaseLoop acc ((k ++ "=" ++ v) :: ls) =
         osReleaseLoop (osInsert acc k v) ls) := by
  have heq : ("=" : String).data = ['='] := rfl
  have hsplit : ∀ k v : String, '=' ∉ k.data →
      parseLine (k ++ "=" ++ v) = some (k, v) := by
    intro k v hk
    obtain ⟨kd⟩ := k
    obtain ⟨vd⟩ := v
    simp only [parseLine, splitOnceStr]
    have hdata : ((String.mk kd ++ "=") ++ String.mk vd).data =
        kd ++ '=' :: vd := by
      simp [String.data_append, heq]
    rw [hdata, splitOnceList_append_cons vd hk]
    simp
  refine ⟨hsplit, osGet_osInsert_self, ?_⟩
  intro acc k v ls hk
  simp [osReleaseLoop, hsplit k v hk]

theorem osrelease_first_split_last_wins_witness :
    parseLine ("ID" ++ "=" ++ "\"a=b\"") = some ("ID", "\"a=b\"")
  ∧ osGet (osInsert [("ID", "x")] "ID" "y") "ID" = some "y"
  ∧ osReleaseLoop [] (("ID" ++ "=" ++ "debian") :: []) =
      osReleaseLoop (osInsert [] "ID" "debian") [] :=
  ⟨osrelease_first_split_last_wins.1 "ID" "\"a=b\"" (by decide),
   osrelease_first_split_last_wins.2.1 [("ID", "x")] "ID" "y",
   osrelease_first_split_last_wins.2.2 [] "ID" "debian" [] (by decide)⟩

theorem splitOnceStr_sh_colon (rest : String) :
    splitOnceStr ':' ("sh:" ++ rest) = some ("sh", rest) := by
  obtain ⟨rd⟩ := rest
  simp only [splitOnceStr]
  have h1 : ("sh:" : String).data = ['s', 'h', ':'] := rfl
  have hdata : (("sh:" : String) ++ String.mk rd).data = ['s', 'h'] ++ ':' :: rd := by
    simp [String.data_append, h1]
  rw [hdata, splitOnceList_append_cons rd (by decide)]
  rfl

theorem splitOnceStr_semi (c o : String) (hc : ';' ∉ c.data) :
    splitOnceStr ';' (c ++ ";" ++ o) = some (c, o) := by
  obtain ⟨cd⟩ := c
  obtain ⟨od⟩ := o
  simp only [splitOnceStr]
  have h1 : (";" : String).data = [';'] := rfl
  have hdata : ((String.mk cd ++ ";") ++ String.mk od).data = cd ++ ';' :: od := by
    simp [String.data_append, h1]
  rw [hdata, splitOnceList_append_cons od hc]
  rfl

theorem osAny_error (os : OsMap) : ∀ (ts : List String) (m : String),
    osAny os ts = .error m → m = unwrapPanicMsg := by
  intro ts
  induction ts with
  | nil => intro m h; simp [osAny] at h
  | cons t ts ih =>
    intro m h
    simp only [osAny] at h
    cases hsp : splitOnceStr '=' t with
    | none =>
      rw [hsp] at h
      simp at h
      exact h.symm
    | some kv =>
      obtain ⟨k, v⟩ := kv
      rw [hsp] at h
      dsimp only at h
      by_cases hg : osGet os k = some v
      · rw [if_pos hg] at h
        simp at h
      · rw [if_neg hg] at h
        exact ih m h

/-- C3 counterexample: on the fence `sh:; ID` (context constraint satisfied,
os-list token `ID` lacking `=`) the run does abort, but the reported error
is the fixed `Option::unwrap` panic message, which does not contain the
offending info-string. -/
theorem malformed_fence_error_counterexample :
    includeFenced "sh:; ID" [] [] = .error unwrapPanicMsg
  ∧ ¬ ("sh:; ID".data <:+: unwrapPanicMsg.data) :=
  ⟨rfl, by decide⟩

theorem osAny_reaches_bad (os : OsMap) :
    ∀ (ts₁ : List String) (t : String) (ts₂ : List String),
      (∀ x ∈ ts₁, ∃ k v, splitOnceStr '=' x = some (k, v) ∧
        osGet os k ≠ some v) →
      splitOnceStr '=' t = none →
      osAny os (ts₁ ++ t :: ts₂) = .error unwrapPanicMsg := by
  intro ts₁
  induction ts₁ with
  | nil =>
    intro t ts₂ _ hbad
    simp [osAny, hbad]
  | cons x xs ih =>
    intro t ts₂ hpre hbad
    obtain ⟨k, v, hx, hne⟩ := hpre x (List.mem_cons_self x xs)
    have hrest : ∀ y ∈ xs, ∃ k v, splitOnceStr '=' y = some (k, v) ∧
        osGet os k ≠ some v :=
      fun y hy => hpre y (List.mem_cons_of_mem x hy)
    simp only [List.cons_append, osAny, hx]
    rw [if_neg hne]
    exact ih t ts₂ hrest hbad

/-- C3 (amended): when a `sh` fence's context constraint is satisfied and
the lazy os-list scan reaches a token lacking `=` — every earlier token is a
well-formed `KEY=VALUE` pair that does not match the OS map — the predicate
aborts with the `Option::unwrap` panic instead of silently returning false;
moreover every error the predicate raises is that fixed panic message, which
(see the counterexample) does not include the offending info-string. The
fence is arbitrary: `param` is everything after the first `:`, and the
ctx-list/os-list pair is obtained from it exactly as the code does, so
fences without `;` (whole param is the os-list) are covered. -/
theorem malformed_fence_aborts :
    (∀ (info param : String) (cx : List String) (os : OsMap)
       (ts₁ : List String) (t : String) (ts₂ : List String),
       splitOnceStr ':' info = some ("sh", param) →
       (((splitOnceStr ';' param).getD ("", param)).1 = "" ∨
        ∃ x ∈ splitComma ((splitOnceStr ';' param).getD ("", param)).1,
          x ∈ cx) →
       splitWs (((splitOnceStr ';' param).getD ("", param)).2) =
         ts₁ ++ t :: ts₂ →
       (∀ x ∈ ts₁, ∃ k v, splitOnceStr '=' x = some (k, v) ∧
         osGet os k ≠ some v) →
       splitOnceStr '=' t = none →
       includeFenced info cx os = .error unwrapPanicMsg)
  ∧ (∀ (info : String) (cx : List String) (os : OsMap) (m : String),
       includeFenced info cx os = .error m → m = unwrapPanicMsg) := by
  constructor
  · intro info param cx os ts₁ t ts₂ hsplit hctx hws hpre hbad
    have hguard : ¬ (((splitOnceStr ';' param).getD ("", param)).1 ≠ "" ∧
        ¬ ∃ x ∈ splitComma ((splitOnceStr ';' param).getD ("", param)).1,
          x ∈ cx) := by
      rintro ⟨hne, hnex⟩
      rcases hctx with hc | hex
      · exact hne hc
      · exact hnex hex
    have ho : ((splitOnceStr ';' param).getD ("", param)).2 ≠ "" := by
      intro h
      rw [h] at hws
      simp [splitWs, splitWsList, splitWsAux] at hws
    simp only [includeFenced, hsplit, if_pos rfl]
    rw [if_neg hguard, if_neg ho, hws]
    simp only [if_true]
    exact osAny_reaches_bad os ts₁ t ts₂ hpre hbad
  · intro info cx os m herr
    simp only [includeFenced] at herr
    cases hsplit : splitOnceStr ':' info with
    | none => rw [hsplit] at herr; simp at herr
    | some p =>
      obtain ⟨lang, param⟩ := p
      rw [hsplit] at herr
      simp only [] at herr
      by_cases hl : lang = "sh"
      · rw [if_pos hl] at herr
        by_cases hg : ((splitOnceStr ';' param).getD ("", param)).1 ≠ "" ∧
            ¬ ∃ x ∈ splitComma ((splitOnceStr ';' param).getD ("", param)).1,
              x ∈ cx
        · rw [if_pos hg] at herr
          simp at herr
        · rw [if_neg hg] at herr
          by_cases ho : ((splitOnceStr ';' param).getD ("", param)).2 = ""
          · rw [if_pos ho] at herr
            simp at herr
          · rw [if_neg ho] at herr
            exact osAny_error os _ m herr
      · rw [if_neg hl] at herr
        simp at herr

theorem malformed_fence_aborts_witness :
    includeFenced "sh:ID" [] [] = .error unwrapPanicMsg
  ∧ includeFenced "sh:;A=1 B" [] [] = .error unwrapPanicMsg
  ∧ unwrapPanicMsg = unwrapPanicMsg :=
  ⟨malformed_fence_aborts.1 "sh:ID" "ID" [] [] [] "ID" []
     (by decide) (by decide) (by decide)
     (by intro x hx; simp at hx) (by decide),
   malformed_fence_aborts.1 "sh:;A=1 B" ";A=1 B" [] [] ["A=1"] "B" []
     (by decide) (by decide) (by decide)
     (by
       intro x hx
       simp at hx
       subst hx
       exact ⟨"A", "1", by decide, by decide⟩)
     (by decide),
   malformed_fence_aborts.2 "sh:; ID" [] [] unwrapPanicMsg rfl⟩

/-- C10: the context constraint is evaluated before the os-list is parsed:
an `sh` fence whose ctx-list is non-empty and disjoint from the caller's
context set yields `.ok false` whatever the os-list contains (even a token
lacking `=`), and conversely an error can only arise when the context
constraint is satisfied (empty ctx-list or a shared tag). -/
theorem ctx_checked_before_os :
    (∀ (c o : String) (cx : List String) (os : OsMap),
       ';' ∉ c.data → c ≠ "" →
       (∀ t ∈ splitComma c, t ∉ cx) →
       includeFenced ("sh:" ++ (c ++ ";" ++ o)) cx os = .ok false)
  ∧ (∀ (info : String) (cx : List String) (os : OsMap) (m : String),
       includeFenced info cx os = .error m →
       ∃ param,
         splitOnceStr ':' info = some ("sh", param) ∧
         (((splitOnceStr ';' param).getD ("", param)).1 = "" ∨
          ∃ t ∈ splitComma ((splitOnceStr ';' param).getD ("", param)).1,
            t ∈ cx)) := by
  constructor
  · intro c o cx os hsemi hc hdisj
    have hguard : c ≠ "" ∧ ¬ ∃ t ∈ splitComma c, t ∈ cx := by
      refine ⟨hc, ?_⟩
      rintro ⟨t, ht, htc⟩
      exact hdisj t ht htc
    simp only [includeFenced, splitOnceStr_sh_colon,
      splitOnceStr_semi c o hsemi, if_pos rfl, Option.getD]
    rw [if_pos hguard]
    simp
  · intro info cx os m herr
    simp only [includeFenced] at herr
    cases hsplit : splitOnceStr ':' info with
    | none => rw [hsplit] at herr; simp at herr
    | some p =>
      obtain ⟨lang, param⟩ := p
      rw [hsplit] at herr
      simp only [] at herr
      by_cases hl : lang = "sh"
      · subst hl
        refine ⟨param, rfl, ?_⟩
        by_cases hg : ((splitOnceStr ';' param).getD ("", param)).1 ≠ "" ∧
            ¬ ∃ t ∈ splitComma ((splitOnceStr ';' param).getD ("", param)).1,
              t ∈ cx
        · rw [if_pos rfl, if_pos hg] at herr
          simp at herr
        · rcases not_and_or.mp hg with hne | hnex
          · left
            exact not_not.mp (fun h => hne h)
          · right
            exact not_not.mp hnex
      · rw [if_neg hl] at herr
        simp at herr

theorem ctx_checked_before_os_witness :
    includeFenced ("sh:" ++ ("git" ++ ";" ++ "BADTOKEN")) [] [] = .ok false
  ∧ ∃ param,
      splitOnceStr ':' "sh:; ID" = some ("sh", param) ∧
      (((splitOnceStr ';' param).getD ("", param)).1 = "" ∨
       ∃ t ∈ splitComma ((splitOnceStr ';' param).getD ("", param)).1,
         t ∈ ([] : List String)) :=
  ⟨ctx_checked_before_os.1 "git" "BADTOKEN" [] [] (by decide) (by decide)
     (by decide),
   ctx_checked_before_os.2 "sh:; ID" [] [] unwrapPanicMsg rfl⟩
